import Mathlib

/-!
Verification of the edge-function store of `supafast-mcp`
(`src/tools/edge-functions.ts`).

Strings of the source language are modelled as `List Char`; the ordered
key/value `Map` used by the secret store is modelled as an association
list updated in place by `mapSet` (the semantics of `Map.set`).
-/

/-- Source-language strings, modelled as lists of characters. -/
abbrev Str := List Char

/-- The ordered mapping produced by the env-file parser (a JS `Map`). -/
abbrev EnvMap := List (Str × Str)

/-- The whitespace set of the source language: the characters matched by the
regex class `\s` and stripped by `trim` (ASCII whitespace, NBSP, Ogham space,
the U+2000 block, line/paragraph separators, narrow/medium spaces,
ideographic space, BOM), identified by code point. -/
def isJsWhitespace (c : Char) : Bool :=
  (c.toNat = 9) || (c.toNat = 10) || (c.toNat = 11) || (c.toNat = 12) ||
  (c.toNat = 13) || (c.toNat = 32) || (c.toNat = 160) || (c.toNat = 5760) ||
  (8192 ≤ c.toNat && c.toNat ≤ 8202) ||
  (c.toNat = 8232) || (c.toNat = 8233) || (c.toNat = 8239) ||
  (c.toNat = 8287) || (c.toNat = 12288) || (c.toNat = 65279)

/-- `String.prototype.trim`: drop whitespace from both ends. -/
def jsTrim (s : Str) : Str :=
  ((s.dropWhile isJsWhitespace).reverse.dropWhile isJsWhitespace).reverse

/-- `content.split('\n')`: split at every newline, keeping empty segments
(the split of the empty string is one empty segment). -/
def jsSplitNL : Str → List Str
  | [] => [[]]
  | c :: rest =>
    if c = '\n' then [] :: jsSplitNL rest
    else
      match jsSplitNL rest with
      | [] => [[c]]
      | l :: ls => (c :: l) :: ls

/-- `trimmed.indexOf('=')` followed by the two `slice` calls of the parser:
split at the first `=`, `none` when there is no `=` in the line. -/
def splitFirstEq : Str → Option (Str × Str)
  | [] => none
  | c :: rest =>
    if c = '=' then some ([], rest)
    else
      match splitFirstEq rest with
      | none => none
      | some (a, b) => some (c :: a, b)

/-- The quote-stripping step of the parser: if the trimmed value starts and
ends with `"` (or starts and ends with `'`), remove one character from each
end (`value.slice(1, -1)`; on a single quote character this yields the empty
string, exactly as `slice` does). -/
def stripQuotes (v : Str) : Str :=
  if (v.head? = some '"' ∧ v.getLast? = some '"') ∨
      (v.head? = some '\'' ∧ v.getLast? = some '\'') then
    (v.drop 1).dropLast
  else v

/-- `Map.set`: update the value of an existing key in place (keeping its
position), otherwise append the new entry at the end. -/
def mapSet : EnvMap → Str → Str → EnvMap
  | [], k, v => [(k, v)]
  | (k', v') :: rest, k, v =>
    if k' = k then (k, v) :: rest else (k', v') :: mapSet rest k v

/-- `Map.prototype.get`-style lookup on the ordered mapping. -/
def lookupEnv : EnvMap → Str → Option Str
  | [], _ => none
  | (k', v) :: rest, k => if k' = k then some v else lookupEnv rest k

/-- `Map.prototype.has` as the source uses it (`env.has(key)`). -/
def envHas (env : EnvMap) (k : Str) : Bool :=
  (lookupEnv env k).isSome

/-- `Map.prototype.delete` on a mapping with unique keys: drop the entry
with the given key. -/
def mapDelete (env : EnvMap) (k : Str) : EnvMap :=
  env.filter fun e => e.1 ≠ k

/-- One loop iteration of `parseEnvFile`, reduced to the entry it extracts:
trim the line, skip it when blank or a `#` comment or without `=`, otherwise
split at the first `=`, trim the key, trim the value and strip one outer
quote pair. -/
def lineEntry (line : Str) : Option (Str × Str) :=
  let trimmed := jsTrim line
  if trimmed = [] then none
  else if trimmed.head? = some '#' then none
  else
    match splitFirstEq trimmed with
    | none => none
    | some (rawKey, rawValue) => some (jsTrim rawKey, stripQuotes (jsTrim rawValue))

/-- One loop iteration of `parseEnvFile`: `continue` on skipped lines,
`env.set(key, value)` otherwise. -/
def parseLine (env : EnvMap) (line : Str) : EnvMap :=
  match lineEntry line with
  | none => env
  | some (k, v) => mapSet env k v

/-- `parseEnvFile` (src/tools/edge-functions.ts:30): fold the per-line step
over `content.split('\n')`. -/
def parseEnvFile (content : Str) : EnvMap :=
  (jsSplitNL content).foldl parseLine []

/-- The character class `[\s#"'\\$]` of `serializeEnvFile`. -/
def envSpecialChar (c : Char) : Bool :=
  isJsWhitespace c || (c = '#') || (c = '"') || (c = '\'') || (c = '\\') || (c = '$')

/-- `value.replace(/\\/g, '\\\\')`: double every backslash. -/
def doubleBackslashes : Str → Str
  | [] => []
  | c :: rest => (if c = '\\' then ['\\', '\\'] else [c]) ++ doubleBackslashes rest

/-- `.replace(/"/g, '\\"')`: put a backslash before every double quote. -/
def escapeDoubleQuotes : Str → Str
  | [] => []
  | c :: rest => (if c = '"' then ['\\', '"'] else [c]) ++ escapeDoubleQuotes rest

/-- The escaping of `serializeEnvFile`: double backslashes first, then
escape double quotes. -/
def escapeEnvValue (v : Str) : Str :=
  escapeDoubleQuotes (doubleBackslashes v)

/-- The line `serializeEnvFile` pushes for one entry: quoted-and-escaped when
the value contains a character of `[\s#"'\\$]`, plain `key=value` otherwise. -/
def entryLine (k v : Str) : Str :=
  if v.any envSpecialChar then k ++ '=' :: '"' :: (escapeEnvValue v ++ ['"'])
  else k ++ '=' :: v

/-- `lines.join('\n')`. -/
def joinNL : List Str → Str
  | [] => []
  | [l] => l
  | l :: l' :: ls => l ++ '\n' :: joinNL (l' :: ls)

/-- `serializeEnvFile` (src/tools/edge-functions.ts:48): one line per entry,
joined with `\n` and terminated by a trailing newline. -/
def serializeEnvFile (env : EnvMap) : Str :=
  joinNL (env.map fun e => entryLine e.1 e.2) ++ ['\n']

/-- `[A-Za-z_]`, by code point. -/
def isKeyStartChar (c : Char) : Bool :=
  (65 ≤ c.toNat && c.toNat ≤ 90) || (97 ≤ c.toNat && c.toNat ≤ 122) || (c.toNat = 95)

/-- `[A-Za-z0-9_]`, by code point. -/
def isKeyChar (c : Char) : Bool :=
  isKeyStartChar c || (48 ≤ c.toNat && c.toNat ≤ 57)

/-- The secret-key test `/^[A-Za-z_][A-Za-z0-9_]*$/.test(key)`. -/
def isValidKey : Str → Bool
  | [] => false
  | c :: rest => isKeyStartChar c && rest.all isKeyChar

/-- The exceptions the handlers can catch: `statSync` on a missing file,
`'•'.repeat` with a negative count, the missing-configuration throws of
`getFunctionsDir`, and arbitrary other errors (carrying a message). -/
inductive JsError where
  | notFound
  | rangeError
  | configMissing
  | generic (msg : Str)
deriving DecidableEq

/-- `(error as Error).message`, as the catch blocks put it in the envelope. -/
def errMessage : JsError → Str
  | .notFound => "ENOENT: no such file or directory".toList
  | .rangeError => "Invalid count value".toList
  | .configMissing => "SUPABASE_FUNCTIONS_DIR not set in environment".toList
  | .generic msg => msg

/-- The invalid-key message of `handleSetSecret`. -/
def invalidKeyMsg : Str :=
  "Invalid key name. Use letters, numbers, and underscores only.".toList

/-- Result envelope of the secret mutation handlers (`message`/`note` strings
carry no extra state and are represented by the fields the claims observe:
`success`, `error`, and the `restarted` flag present on success). -/
structure SecretOpResult where
  success : Bool
  error : Option Str
  restarted : Option Bool
deriving DecidableEq

/-- One listed secret: its key, the masked `value` field, and the reported
`length`. -/
structure SecretEntry where
  key : Str
  value : Str
  length : Nat
deriving DecidableEq

/-- Result envelope of `handleListSecrets`. -/
structure ListSecretsResult where
  success : Bool
  secrets : Option (List SecretEntry)
  error : Option Str
deriving DecidableEq

/-- `handleSetSecret` (src/tools/edge-functions.ts:229) over an explicit
state: `restartOk` is the outcome of `restartEdgeRuntime` (whose internal
try/catch turns every failure into `false`), `cfg` says whether
`getFunctionsDir` succeeds, and `st` is the current `.env` file content
(`none` when the file does not exist). Returns the envelope, the new file
state, and whether a restart was triggered. -/
def handleSetSecret (restartOk cfg : Bool) (st : Option Str) (key value : Str) :
    SecretOpResult × Option Str × Bool :=
  if isValidKey key = false then
    ({ success := false, error := some invalidKeyMsg, restarted := none }, st, false)
  else if cfg = false then
    ({ success := false, error := some (errMessage .configMissing), restarted := none },
      st, false)
  else
    let env := match st with
      | some content => parseEnvFile content
      | none => []
    let env2 := mapSet env key value
    ({ success := true, error := none, restarted := some restartOk },
      some (serializeEnvFile env2), true)

/-- `handleDeleteSecret` (src/tools/edge-functions.ts:263), same state model
as `handleSetSecret`. -/
def handleDeleteSecret (restartOk cfg : Bool) (st : Option Str) (key : Str) :
    SecretOpResult × Option Str × Bool :=
  if cfg = false then
    ({ success := false, error := some (errMessage .configMissing), restarted := none },
      st, false)
  else
    match st with
    | none =>
      ({ success := false, error := some ("No secrets file exists".toList),
         restarted := none }, st, false)
    | some content =>
      let env := parseEnvFile content
      if envHas env key = false then
        ({ success := false,
           error := some ("Secret '".toList ++ key ++ "' not found".toList),
           restarted := none }, st, false)
      else
        ({ success := true, error := none, restarted := some restartOk },
          some (serializeEnvFile (mapDelete env key)), true)

/-- `'•'.repeat(n)` with the exact `repeat` semantics: a negative count
throws a `RangeError`. -/
def bulletRepeat (n : Int) : Except JsError Str :=
  if n < 0 then .error .rangeError else .ok (List.replicate n.toNat '•')

/-- The masking step of `handleListSecrets` for one entry:
`value.slice(0, 3) + '•'.repeat(Math.min(value.length - 3, 20))`. -/
def maskEntry (e : Str × Str) : Except JsError SecretEntry := do
  let bullets ← bulletRepeat (min ((e.2.length : Int) - 3) 20)
  .ok { key := e.1, value := e.2.take 3 ++ bullets, length := e.2.length }

/-- `handleListSecrets` (src/tools/edge-functions.ts:296): empty success when
the file is absent, otherwise mask every parsed entry; any throw inside the
mapping is caught and becomes the error envelope. -/
def handleListSecrets (cfg : Bool) (st : Option Str) : ListSecretsResult :=
  if cfg = false then
    { success := false, secrets := none, error := some (errMessage .configMissing) }
  else
    match st with
    | none => { success := true, secrets := some [], error := none }
    | some content =>
      match (parseEnvFile content).mapM maskEntry with
      | .ok secrets => { success := true, secrets := some secrets, error := none }
      | .error e => { success := false, secrets := none, error := some (errMessage e) }

/-- One function directory on disk: its name, the `index.ts` content when the
file exists, the mtime `statSync` would report for `index.ts`, and
the import-map file when it exists (the pretty-printed
`JSON.stringify({imports}, null, 2)` text is represented by the mapping it
encodes). -/
structure FnDir where
  name : Str
  indexFile : Option Str
  indexMtime : Nat
  importMapFile : Option (List (Str × Str))
deriving DecidableEq

/-- The functions directory: its immediate subdirectories in `readdirSync`
order. -/
structure FnStore where
  dirs : List FnDir
deriving DecidableEq

/-- Directory lookup by name among the immediate subdirectories. -/
def findDir : List FnDir → Str → Option FnDir
  | [], _ => none
  | d :: rest, n => if d.name = n then some d else findDir rest n

/-- Writing back a (new or updated) directory: replace in place, or append
as a freshly created directory. -/
def setDir : List FnDir → Str → FnDir → List FnDir
  | [], _, d => [d]
  | d' :: rest, n, d => if d'.name = n then d :: rest else d' :: setDir rest n d

/-- Envelope of `handleCreateEdgeFunction` (the `message`, `path` and `note`
strings carry no state beyond the inputs). -/
structure CreateFnResult where
  success : Bool
  error : Option Str
  verifyJWT : Option Bool
deriving DecidableEq

/-- The directory state `handleCreateEdgeFunction` leaves for the deployed
function: the existing directory (or a freshly created empty one —
`mkdirSync` recursive is idempotent), with `index.ts` always overwritten
(mtime becomes `now`) and `import_map.json` written only when a
non-empty import map was supplied, meaning the argument is present and the
mapping has at least one entry. -/
def deployedDir (st : FnStore) (name source : Str)
    (importMap : Option (List (Str × Str))) (now : Nat) : FnDir :=
  let base : FnDir := match findDir st.dirs name with
    | some d => d
    | none => { name := name, indexFile := none, indexMtime := 0, importMapFile := none }
  let d1 : FnDir := { base with indexFile := some source, indexMtime := now }
  match importMap with
  | some m => if 0 < m.length then { d1 with importMapFile := some m } else d1
  | none => d1

/-- `handleCreateEdgeFunction` (src/tools/edge-functions.ts:143): ensure the
function directory exists, write its files (`deployedDir`), and return the
success envelope with the effective JWT flag. -/
def handleCreateEdgeFunction (cfg : Bool) (st : FnStore) (name source : Str)
    (importMap : Option (List (Str × Str))) (verifyJWT : Option Bool) (now : Nat) :
    CreateFnResult × FnStore :=
  if cfg = false then
    ({ success := false, error := some (errMessage .configMissing), verifyJWT := none }, st)
  else
    ({ success := true, error := none, verifyJWT := some (verifyJWT.getD true) },
      ⟨setDir st.dirs name (deployedDir st name source importMap now)⟩)

/-- One entry of the function listing. -/
structure FnInfo where
  name : Str
  hasIndex : Bool
  hasImportMap : Bool
  updatedAt : Nat
deriving DecidableEq

/-- Envelope of `handleListEdgeFunctions`. -/
structure ListFnResult where
  success : Bool
  functions : Option (List FnInfo)
  error : Option Str
deriving DecidableEq

/-- The per-directory body of the listing map: `existsSync` probes for
`index.ts` and `import_map.json`, then `statSync('index.ts')` — which throws
a NotFound error when the file does not exist. -/
def listFnEntry (d : FnDir) : Except JsError FnInfo :=
  let hasIndex := d.indexFile.isSome
  let hasImportMap := d.importMapFile.isSome
  match d.indexFile with
  | some _ => .ok { name := d.name, hasIndex := hasIndex,
                    hasImportMap := hasImportMap, updatedAt := d.indexMtime }
  | none => .error .notFound

/-- `handleListEdgeFunctions` (src/tools/edge-functions.ts:181): map the
per-directory body over every subdirectory inside one try/catch. -/
def handleListEdgeFunctions (cfg : Bool) (st : FnStore) : ListFnResult :=
  if cfg = false then
    { success := false, functions := none, error := some (errMessage .configMissing) }
  else
    match st.dirs.mapM listFnEntry with
    | .ok fns => { success := true, functions := some fns, error := none }
    | .error e => { success := false, functions := none, error := some (errMessage e) }

/-- Envelope of `handleDeleteEdgeFunction`. -/
structure DeleteFnResult where
  success : Bool
  error : Option Str
deriving DecidableEq

/-- `handleDeleteEdgeFunction` (src/tools/edge-functions.ts:208): not-found
envelope when the directory is absent, else remove the directory tree. -/
def handleDeleteEdgeFunction (cfg : Bool) (st : FnStore) (name : Str) :
    DeleteFnResult × FnStore :=
  if cfg = false then
    ({ success := false, error := some (errMessage .configMissing) }, st)
  else
    match findDir st.dirs name with
    | none =>
      ({ success := false,
         error := some ("Function '".toList ++ name ++ "' not found".toList) }, st)
    | some _ => ({ success := true, error := none }, ⟨st.dirs.filter fun d => d.name ≠ name⟩)

/-- Modelled from the spec: the backend client consumed by the invoke
handler ("a backend client capable of invoking a deployed function by name
with a JSON body and headers, returning either a result payload or a
structured error"); its source (`utils/connection.ts`) is not part of the
given sources. A call yields a payload, a structured error, or a thrown
exception (caught by the handler's try/catch). -/
inductive InvokeOutcome where
  | result (data : Str)
  | structuredError (msg : Str)
  | thrown (e : JsError)

/-- Modelled from the spec: a connection as used by
`supabase.functions.invoke(name, options)` — payload and headers optional. -/
structure Connection where
  invoke : Str → Option Str → Option (List (Str × Str)) → InvokeOutcome

/-- Envelope of `handleInvokeEdgeFunction`. -/
structure InvokeResult where
  success : Bool
  result : Option Str
  error : Option Str

/-- `handleInvokeEdgeFunction` (src/tools/edge-functions.ts:318).
`getConnection()` runs BEFORE the `try` block, so a failing connection
provider (modelled as `provider = .error e`) escapes the handler: the outer
`Except` layer is the exception channel towards the caller. Inside the try,
a structured error and a thrown exception both become the error envelope. -/
def handleInvokeEdgeFunction (provider : Except JsError Connection)
    (name : Str) (payload : Option Str) (headers : Option (List (Str × Str))) :
    Except JsError InvokeResult :=
  match provider with
  | .error e => .error e
  | .ok conn =>
    .ok (match conn.invoke name payload headers with
      | .result data => { success := true, result := some data, error := none }
      | .structuredError msg => { success := false, result := none, error := some msg }
      | .thrown e => { success := false, result := none, error := some (errMessage e) })

/-- The success/error envelope contract of the facade: either success, or
failure carrying an error message. -/
def isEnvelope (success : Bool) (error : Option Str) : Prop :=
  success = true ∨ (success = false ∧ error.isSome = true)

/-- Values that survive the codec round-trip: no backslash, no double quote,
no newline. -/
def goodValue (v : Str) : Bool :=
  v.all fun c => !(c = '\\' : Bool) && !(c = '"' : Bool) && !(c = '\n' : Bool)

/-- The keys of the entries of a line list, first occurrences only, in file
order. -/
def firstKeys : List (Str × Str) → List Str
  | [] => []
  | (k, _) :: rest => k :: (firstKeys rest).filter fun k' => k' ≠ k

/-- The value of the last occurrence of a key in a raw entry list. -/
def jsLastValue (k : Str) : List (Str × Str) → Option Str
  | [] => none
  | (k', v) :: rest =>
    match jsLastValue k rest with
    | some w => some w
    | none => if k' = k then some v else none

/-- The raw (un-deduplicated) entry list the parser extracts from a file, in
line order. -/
def entriesOf (content : Str) : List (Str × Str) :=
  (jsSplitNL content).filterMap lineEntry

/-- A one-entry mapping whose value is a single backslash. -/
def backslashMap : EnvMap := [("A".toList, "\\".toList)]

/-- A store with one function directory that has no `index.ts`. -/
def brokenStore : FnStore :=
  ⟨[{ name := "broken-fn".toList, indexFile := none, indexMtime := 0,
      importMapFile := none }]⟩

/-- The secrets file of the masking example of the spec. -/
def maskExampleFile : Str := "API_KEY=mysecretvalue123\n".toList

/-- A connection provider whose `getConnection()` throws. -/
def failingProvider : Except JsError Connection :=
  .error (.generic "Supabase connection not initialized".toList)

/-- A secrets file with a duplicate key (`A` occurs first and last). -/
def dupKeyFile : Str := "A=1\nB=2\nA=3\n".toList

/-- A secrets file holding one value of length 1. -/
def shortValueFile : Str := "A=x\n".toList

/-- A one-secret file used by the restart-isolation witness. -/
def oneSecretFile : Str := "A=1\n".toList

/-- A mapping with quotes-free, backslash-free, newline-free values used to
exercise the amended round-trip at a concrete input. -/
def rtWitnessMap : EnvMap :=
  [("API_URL".toList, "https://x.test/a b".toList),
   ("EMPTY".toList, "".toList),
   ("NOTE_1".toList, "it's #1 $HOME".toList),
   ("PLAIN".toList, "abc123".toList)]

theorem keyStartChar_isKeyChar (c : Char) (h : isKeyStartChar c = true) :
    isKeyChar c = true := by
  simp [isKeyChar, h]

theorem keyChar_not_ws (c : Char) (h : isKeyChar c = true) :
    isJsWhitespace c = false := by
  cases hw : isJsWhitespace c
  · rfl
  · exfalso
    simp only [isKeyChar, isKeyStartChar, Bool.or_eq_true, Bool.and_eq_true,
      decide_eq_true_eq] at h
    simp only [isJsWhitespace, Bool.or_eq_true, Bool.and_eq_true,
      decide_eq_true_eq] at hw
    omega

theorem keyChar_facts (c : Char) (h : isKeyChar c = true) :
    c ≠ '=' ∧ c ≠ '#' ∧ c ≠ '\n' ∧ c ≠ '"' ∧ c ≠ '\'' := by
  refine ⟨?_, ?_, ?_, ?_, ?_⟩ <;> (intro hc; subst hc; exact absurd h (by decide))

theorem notSpecial_facts (c : Char) (h : envSpecialChar c = false) :
    isJsWhitespace c = false ∧ c ≠ '#' ∧ c ≠ '"' ∧ c ≠ '\'' ∧ c ≠ '\\' ∧
      c ≠ '$' ∧ c ≠ '\n' := by
  simp only [envSpecialChar, Bool.or_eq_false_iff, decide_eq_false_iff_not] at h
  obtain ⟨⟨⟨⟨⟨hw, h1⟩, h2⟩, h3⟩, h4⟩, h5⟩ := h
  refine ⟨hw, h1, h2, h3, h4, h5, ?_⟩
  intro hc
  subst hc
  exact absurd hw (by decide)

theorem dropWhile_ws_eq_self (l : Str)
    (h : ∀ c, l.head? = some c → isJsWhitespace c = false) :
    l.dropWhile isJsWhitespace = l := by
  cases l with
  | nil => rfl
  | cons a t =>
    have ha := h a rfl
    simp [List.dropWhile_cons, ha]

theorem jsTrim_eq_self (l : Str)
    (h1 : ∀ c, l.head? = some c → isJsWhitespace c = false)
    (h2 : ∀ c, l.getLast? = some c → isJsWhitespace c = false) :
    jsTrim l = l := by
  unfold jsTrim
  rw [dropWhile_ws_eq_self l h1, dropWhile_ws_eq_self l.reverse ?_,
    List.reverse_reverse]
  intro c hc
  apply h2
  rwa [List.head?_reverse] at hc

theorem jsTrim_eq_self_of_all (l : Str)
    (h : ∀ c ∈ l, isJsWhitespace c = false) : jsTrim l = l := by
  apply jsTrim_eq_self
  · intro c hc
    apply h
    cases l with
    | nil => exact absurd hc (by simp)
    | cons a t =>
      simp only [List.head?_cons, Option.some_inj] at hc
      simp [hc]
  · intro c hc
    apply h
    have : c ∈ l.reverse := by
      rw [← List.head?_reverse] at hc
      cases hr : l.reverse with
      | nil => rw [hr] at hc; exact absurd hc (by simp)
      | cons a t =>
        rw [hr] at hc
        simp only [List.head?_cons, Option.some_inj] at hc
        simp [hr, hc]
    exact List.mem_reverse.mp this

theorem splitFirstEq_append (k rest : Str) (h : ∀ c ∈ k, c ≠ '=') :
    splitFirstEq (k ++ '=' :: rest) = some (k, rest) := by
  induction k with
  | nil => simp [splitFirstEq]
  | cons a t ih =>
    have ha : a ≠ '=' := h a (List.mem_cons_self a t)
    have ih' := ih fun c hc => h c (List.mem_cons_of_mem a hc)
    simp [splitFirstEq, ha, ih']

theorem stripQuotes_eq_self (v : Str)
    (h : ∀ c, v.head? = some c → c ≠ '"' ∧ c ≠ '\'') : stripQuotes v = v := by
  unfold stripQuotes
  rw [if_neg]
  rintro (⟨h1, _⟩ | ⟨h1, _⟩)
  · exact (h _ h1).1 rfl
  · exact (h _ h1).2 rfl

theorem stripQuotes_wrap (v : Str) : stripQuotes ('"' :: (v ++ ['"'])) = v := by
  have hlast : (('"' :: v) ++ ['"']).getLast? = some '"' := by
    rw [List.getLast?_append_cons]
    rfl
  unfold stripQuotes
  rw [if_pos]
  · simp
  · left
    exact ⟨rfl, hlast⟩

theorem jsSplitNL_append (l rest : Str) (h : ∀ c ∈ l, c ≠ '\n') :
    jsSplitNL (l ++ '\n' :: rest) = l :: jsSplitNL rest := by
  induction l with
  | nil => simp [jsSplitNL]
  | cons a t ih =>
    have ha : a ≠ '\n' := h a (List.mem_cons_self a t)
    have ih' := ih fun c hc => h c (List.mem_cons_of_mem a hc)
    simp [jsSplitNL, ha, ih']

theorem jsSplitNL_joinNL (lines : List Str) (hne : lines ≠ [])
    (h : ∀ l ∈ lines, ∀ c ∈ l, c ≠ '\n') :
    jsSplitNL (joinNL lines ++ ['\n']) = lines ++ [[]] := by
  induction lines with
  | nil => exact absurd rfl hne
  | cons l ls ih =>
    cases ls with
    | nil =>
      show jsSplitNL (joinNL [l] ++ ['\n']) = [l, []]
      rw [show joinNL [l] = l from rfl,
        show l ++ ['\n'] = l ++ '\n' :: ([] : Str) from rfl,
        jsSplitNL_append l [] (h l (List.mem_cons_self l []))]
      rfl
    | cons l' ls' =>
      rw [show joinNL (l :: l' :: ls') = l ++ '\n' :: joinNL (l' :: ls') from rfl,
        List.append_assoc, List.cons_append,
        jsSplitNL_append l _ (h l (List.mem_cons_self l _)),
        ih (by simp) (fun m hm => h m (List.mem_cons_of_mem l hm))]
      rfl

theorem doubleBackslashes_eq_self (v : Str) (h : ∀ c ∈ v, c ≠ '\\') :
    doubleBackslashes v = v := by
  induction v with
  | nil => rfl
  | cons a t ih =>
    have ha : a ≠ '\\' := h a (List.mem_cons_self a t)
    simp [doubleBackslashes, ha, ih fun c hc => h c (List.mem_cons_of_mem a hc)]

theorem escapeDoubleQuotes_eq_self (v : Str) (h : ∀ c ∈ v, c ≠ '"') :
    escapeDoubleQuotes v = v := by
  induction v with
  | nil => rfl
  | cons a t ih =>
    have ha : a ≠ '"' := h a (List.mem_cons_self a t)
    simp [escapeDoubleQuotes, ha, ih fun c hc => h c (List.mem_cons_of_mem a hc)]

theorem escapeEnvValue_eq_self (v : Str) (h1 : ∀ c ∈ v, c ≠ '\\')
    (h2 : ∀ c ∈ v, c ≠ '"') : escapeEnvValue v = v := by
  unfold escapeEnvValue
  rw [doubleBackslashes_eq_self v h1, escapeDoubleQuotes_eq_self v h2]

theorem validKey_chars (k : Str) (h : isValidKey k = true) :
    ∀ c ∈ k, isKeyChar c = true := by
  cases k with
  | nil => simp [isValidKey] at h
  | cons a t =>
    simp only [isValidKey, Bool.and_eq_true, List.all_eq_true] at h
    intro c hc
    rcases List.mem_cons.mp hc with rfl | hm
    · exact keyStartChar_isKeyChar c h.1
    · exact h.2 c hm

theorem validKey_shape (k : Str) (h : isValidKey k = true) :
    ∃ a t, k = a :: t ∧ isKeyStartChar a = true := by
  cases k with
  | nil => simp [isValidKey] at h
  | cons a t =>
    simp only [isValidKey, Bool.and_eq_true] at h
    exact ⟨a, t, rfl, h.1⟩

theorem goodValue_facts (v : Str) (h : goodValue v = true) :
    ∀ c ∈ v, c ≠ '\\' ∧ c ≠ '"' ∧ c ≠ '\n' := by
  intro c hc
  have hb := List.all_eq_true.mp h c hc
  simp only [Bool.and_eq_true, Bool.not_eq_true', decide_eq_false_iff_not] at hb
  exact ⟨hb.1.1, hb.1.2, hb.2⟩

theorem mem_of_head?_eq (l : Str) (c : Char) (h : l.head? = some c) : c ∈ l := by
  cases l with
  | nil => simp at h
  | cons a t =>
    simp only [List.head?_cons, Option.some_inj] at h
    simp [h]

theorem lineEntry_keyed (a : Char) (t rawv : Str)
    (hnw : isJsWhitespace a = false) (hhash : a ≠ '#')
    (hne : ∀ c ∈ (a :: t), c ≠ '=')
    (hlast : ∀ c, ('=' :: rawv).getLast? = some c → isJsWhitespace c = false) :
    lineEntry ((a :: t) ++ '=' :: rawv) =
      some (jsTrim (a :: t), stripQuotes (jsTrim rawv)) := by
  have htrim : jsTrim ((a :: t) ++ '=' :: rawv) = (a :: t) ++ '=' :: rawv := by
    apply jsTrim_eq_self
    · intro c hc
      rw [List.cons_append, List.head?_cons] at hc
      rw [show c = a from (Option.some_inj.mp hc).symm]
      exact hnw
    · intro c hc
      apply hlast c
      rwa [List.getLast?_append_cons] at hc
  have hnil : ¬((a :: t) ++ '=' :: rawv = []) := by simp
  have hhash' : ¬(((a :: t) ++ '=' :: rawv).head? = some '#') := by
    rw [List.cons_append, List.head?_cons]
    simp [hhash]
  simp only [lineEntry]
  rw [htrim, if_neg hnil, if_neg hhash', splitFirstEq_append _ _ hne]

theorem lineEntry_entryLine (k v : Str) (hk : isValidKey k = true)
    (hv : goodValue v = true) : lineEntry (entryLine k v) = some (k, v) := by
  obtain ⟨a, t, rfl, hstart⟩ := validKey_shape k hk
  have hkc := validKey_chars _ hk
  have hnw : isJsWhitespace a = false :=
    keyChar_not_ws a (keyStartChar_isKeyChar a hstart)
  have hkfacts := fun c hc => keyChar_facts c (hkc c hc)
  have hhash : a ≠ '#' := (hkfacts a (List.mem_cons_self a t)).2.1
  have hne : ∀ c ∈ (a :: t), c ≠ '=' := fun c hc => (hkfacts c hc).1
  have hktrim : jsTrim (a :: t) = a :: t :=
    jsTrim_eq_self_of_all _ fun c hc => keyChar_not_ws c (hkc c hc)
  have hgv := goodValue_facts v hv
  by_cases hq : v.any envSpecialChar = true
  · -- quoted branch of the serializer
    have hesc : escapeEnvValue v = v :=
      escapeEnvValue_eq_self v (fun c hc => (hgv c hc).1) (fun c hc => (hgv c hc).2.1)
    have hline : entryLine (a :: t) v = (a :: t) ++ '=' :: ('"' :: (v ++ ['"'])) := by
      simp [entryLine, hq, hesc]
    rw [hline]
    rw [lineEntry_keyed a t ('"' :: (v ++ ['"'])) hnw hhash hne ?hlast]
    · rw [hktrim]
      have hvtrim : jsTrim ('"' :: (v ++ ['"'])) = '"' :: (v ++ ['"']) := by
        apply jsTrim_eq_self
        · intro c hc
          rw [List.head?_cons] at hc
          rw [show c = '"' from (Option.some_inj.mp hc).symm]
          decide
        · intro c hc
          rw [show ('"' :: (v ++ ['"'])) = ('"' :: v) ++ ['"'] from rfl,
            List.getLast?_append_cons] at hc
          rw [show c = '"' from (Option.some_inj.mp hc).symm]
          decide
      rw [hvtrim, stripQuotes_wrap]
    case hlast =>
      intro c hc
      rw [show ('=' :: ('"' :: (v ++ ['"']))) = ('=' :: '"' :: v) ++ ['"'] from rfl,
        List.getLast?_append_cons] at hc
      rw [show c = '"' from (Option.some_inj.mp hc).symm]
      decide
  · -- unquoted branch of the serializer
    have hq' : v.any envSpecialChar = false := by
      cases hqq : v.any envSpecialChar
      · rfl
      · exact absurd hqq hq
    have hvspec : ∀ c ∈ v, envSpecialChar c = false := by
      intro c hc
      cases hcc : envSpecialChar c
      · rfl
      · exact absurd (List.any_eq_true.mpr ⟨c, hc, hcc⟩) (by simp [hq'])
    have hvfacts := fun c hc => notSpecial_facts c (hvspec c hc)
    have hline : entryLine (a :: t) v = (a :: t) ++ '=' :: v := by
      simp [entryLine, hq']
    rw [hline]
    rw [lineEntry_keyed a t v hnw hhash hne ?hlast]
    · rw [hktrim]
      have hvtrim : jsTrim v = v :=
        jsTrim_eq_self_of_all _ fun c hc => (hvfacts c hc).1
      have hvstrip : stripQuotes v = v := by
        apply stripQuotes_eq_self
        intro c hc
        have hm := mem_of_head?_eq v c hc
        exact ⟨(hvfacts c hm).2.2.1, (hvfacts c hm).2.2.2.1⟩
      rw [hvtrim, hvstrip]
    case hlast =>
      rcases v.eq_nil_or_concat with rfl | ⟨v', d, rfl⟩
      · intro c hc
        simp only [List.getLast?_singleton, Option.some_inj] at hc
        rw [← hc]
        decide
      · intro c hc
        rw [List.concat_eq_append] at hc
        rw [show ('=' :: (v' ++ [d])) = ('=' :: v') ++ [d] from rfl,
          List.getLast?_append_cons, List.getLast?_singleton] at hc
        rw [show c = d from (Option.some_inj.mp hc).symm]
        exact (hvfacts d (by simp)).1

theorem entryLine_no_newline (k v : Str) (hk : isValidKey k = true)
    (hv : goodValue v = true) : ∀ c ∈ entryLine k v, c ≠ '\n' := by
  have hkc := validKey_chars _ hk
  have hgv := goodValue_facts v hv
  intro c hc
  unfold entryLine at hc
  by_cases hq : v.any envSpecialChar = true
  · rw [if_pos hq,
      escapeEnvValue_eq_self v (fun x hx => (hgv x hx).1) (fun x hx => (hgv x hx).2.1)]
      at hc
    simp only [List.mem_append, List.mem_cons, List.mem_singleton,
      List.not_mem_nil, or_false] at hc
    rcases hc with hk' | rfl | rfl | hv' | rfl
    · exact (keyChar_facts c (hkc c hk')).2.2.1
    · decide
    · decide
    · exact (hgv c hv').2.2
    · decide
  · rw [if_neg hq] at hc
    simp only [List.mem_append, List.mem_cons] at hc
    rcases hc with hk' | rfl | hv'
    · exact (keyChar_facts c (hkc c hk')).2.2.1
    · decide
    · exact (hgv c hv').2.2

theorem mapSet_append (m : EnvMap) (k v : Str) (h : ¬ k ∈ m.map Prod.fst) :
    mapSet m k v = m ++ [(k, v)] := by
  induction m with
  | nil => rfl
  | cons e t ih =>
    obtain ⟨k', v'⟩ := e
    have hk : k' ≠ k := by
      intro heq
      exact h (by simp [heq])
    have ht : ¬ k ∈ t.map Prod.fst := by
      intro hm
      exact h (by simp [hm])
    simp [mapSet, hk, ih ht]

theorem foldl_mapSet_eq (m : EnvMap) : ∀ acc : EnvMap,
    (m.map Prod.fst).Nodup → (∀ k ∈ m.map Prod.fst, ¬ k ∈ acc.map Prod.fst) →
    m.foldl (fun env e => mapSet env e.1 e.2) acc = acc ++ m := by
  induction m with
  | nil =>
    intro acc _ _
    simp
  | cons e t ih =>
    intro acc hnd hdisj
    obtain ⟨k, v⟩ := e
    have hk_acc : ¬ k ∈ acc.map Prod.fst := hdisj k (by simp)
    have hnd' : (t.map Prod.fst).Nodup ∧ ¬ k ∈ t.map Prod.fst := by
      simp only [List.map_cons, List.nodup_cons] at hnd
      exact ⟨hnd.2, hnd.1⟩
    simp only [List.foldl_cons]
    rw [mapSet_append acc k v hk_acc, ih (acc ++ [(k, v)]) hnd'.1 ?hdj]
    · simp
    case hdj =>
      intro k' hk'
      simp only [List.map_append, List.mem_append, List.map_cons, List.map_nil,
        List.mem_singleton, List.mem_cons]
      rintro (h | h)
      · exact hdisj k' (by simp [hk']) h
      · rcases h with rfl | h
        · exact hnd'.2 hk'
        · simp at h

theorem foldl_parseLine_entryLines (m : EnvMap) : ∀ acc : EnvMap,
    (∀ e ∈ m, isValidKey e.1 = true) → (∀ e ∈ m, goodValue e.2 = true) →
    (m.map fun e => entryLine e.1 e.2).foldl parseLine acc =
      m.foldl (fun env e => mapSet env e.1 e.2) acc := by
  induction m with
  | nil =>
    intro acc _ _
    rfl
  | cons e t ih =>
    intro acc hk hv
    simp only [List.map_cons, List.foldl_cons]
    have hstep : parseLine acc (entryLine e.1 e.2) = mapSet acc e.1 e.2 := by
      rw [parseLine, lineEntry_entryLine e.1 e.2 (hk e (List.mem_cons_self e t))
        (hv e (List.mem_cons_self e t))]
    rw [hstep]
    exact ih _ (fun x hx => hk x (List.mem_cons_of_mem e hx))
      (fun x hx => hv x (List.mem_cons_of_mem e hx))

theorem parseLine_nil (acc : EnvMap) : parseLine acc [] = acc := rfl

/-- Claim C1 is refuted at a value that is one backslash: the serializer
doubles it inside quotes, the parser strips the quotes but never undoes the
doubling, so the round-trip returns a two-backslash value. -/
theorem c1_roundtrip_counterexample :
    parseEnvFile (serializeEnvFile backslashMap) ≠ backslashMap := by decide

/-- Claim C1 (amended): the env-file codec round-trips every ordered mapping
with valid keys whose values contain no backslash, no double quote and no
newline: `parseEnvFile (serializeEnvFile m) = m`, key order and values
preserved. -/
theorem c1_roundtrip_amended (m : EnvMap)
    (hk : ∀ e ∈ m, isValidKey e.1 = true)
    (hv : ∀ e ∈ m, goodValue e.2 = true)
    (hnd : (m.map Prod.fst).Nodup) :
    parseEnvFile (serializeEnvFile m) = m := by
  cases m with
  | nil => decide
  | cons e0 t0 =>
    have hlines : ∀ l ∈ ((e0 :: t0).map fun e => entryLine e.1 e.2),
        ∀ c ∈ l, c ≠ '\n' := by
      intro l hl
      obtain ⟨e, he, rfl⟩ := List.mem_map.mp hl
      exact entryLine_no_newline e.1 e.2 (hk e he) (hv e he)
    rw [parseEnvFile, serializeEnvFile,
      jsSplitNL_joinNL _ (by simp) hlines, List.foldl_append]
    rw [show List.foldl parseLine
        (((e0 :: t0).map fun e => entryLine e.1 e.2).foldl parseLine []) [[]] =
        ((e0 :: t0).map fun e => entryLine e.1 e.2).foldl parseLine [] from rfl]
    rw [foldl_parseLine_entryLines (e0 :: t0) [] hk hv]
    rw [foldl_mapSet_eq (e0 :: t0) [] hnd (by simp)]
    simp

theorem mapSet_lookup (m : EnvMap) (k v : Str) : ∀ k',
    lookupEnv (mapSet m k v) k' = if k = k' then some v else lookupEnv m k' := by
  induction m with
  | nil =>
    intro k'
    simp [mapSet, lookupEnv]
  | cons e t ih =>
    intro k'
    obtain ⟨k0, v0⟩ := e
    by_cases h0 : k0 = k
    · subst h0
      by_cases hk' : k0 = k'
      · subst hk'
        simp [mapSet, lookupEnv]
      · simp [mapSet, lookupEnv, hk']
    · by_cases hk' : k0 = k'
      · subst hk'
        have hkk : ¬ k = k0 := fun h => h0 h.symm
        simp [mapSet, lookupEnv, h0, hkk]
      · simp [mapSet, lookupEnv, h0, hk', ih k']

theorem envHas_iff (m : EnvMap) (k : Str) :
    envHas m k = true ↔ k ∈ m.map Prod.fst := by
  induction m with
  | nil => simp [envHas, lookupEnv]
  | cons e t ih =>
    obtain ⟨k0, v0⟩ := e
    by_cases h : k0 = k
    · subst h
      simp [envHas, lookupEnv]
    · have hk : ¬ k = k0 := fun hh => h hh.symm
      simp [envHas, lookupEnv, h, hk] at ih ⊢
      exact ih

theorem mapSet_keys (m : EnvMap) (k v : Str) :
    (mapSet m k v).map Prod.fst =
      if k ∈ m.map Prod.fst then m.map Prod.fst else m.map Prod.fst ++ [k] := by
  induction m with
  | nil => simp [mapSet]
  | cons e t ih =>
    obtain ⟨k0, v0⟩ := e
    by_cases h0 : k0 = k
    · subst h0
      simp [mapSet]
    · simp only [mapSet, if_neg h0, List.map_cons, ih]
      by_cases hm : k ∈ t.map Prod.fst
      · rw [if_pos hm, if_pos (by simp [hm])]
      · rw [if_neg hm, if_neg ?_]
        · simp
        · simp only [List.mem_cons]
          rintro (h | h)
          · exact h0 h.symm
          · exact hm h

theorem foldl_mapSet_lookup (es : List (Str × Str)) : ∀ (acc : EnvMap) (k : Str),
    lookupEnv (es.foldl (fun env e => mapSet env e.1 e.2) acc) k =
      (match jsLastValue k es with
        | some w => some w
        | none => lookupEnv acc k) := by
  induction es with
  | nil =>
    intro acc k
    rfl
  | cons e t ih =>
    intro acc k
    obtain ⟨k0, v0⟩ := e
    simp only [List.foldl_cons]
    rw [ih]
    cases hl : jsLastValue k t with
    | some w => simp [jsLastValue, hl]
    | none =>
      rw [mapSet_lookup]
      simp only [jsLastValue, hl]
      by_cases h0 : k0 = k
      · subst h0
        simp
      · simp [h0]

theorem filter_not_mem_of_mem (S : List Str) (k : Str) (hk : k ∈ S) :
    ∀ l : List Str, (l.filter fun x => x ∉ S) =
      ((l.filter fun x => x ≠ k).filter fun x => x ∉ S) := by
  intro l
  rw [List.filter_filter]
  apply List.filter_congr
  intro x _
  by_cases hxk : x = k
  · subst hxk
    simp [hk]
  · simp [hxk]

theorem filter_not_mem_append (S : List Str) (k : Str) :
    ∀ l : List Str, (l.filter fun x => x ∉ S ++ [k]) =
      ((l.filter fun x => x ≠ k).filter fun x => x ∉ S) := by
  intro l
  rw [List.filter_filter]
  apply List.filter_congr
  intro x _
  by_cases h1 : x ∈ S <;> by_cases h2 : x = k <;> simp [h1, h2]

theorem foldl_mapSet_keys (es : List (Str × Str)) : ∀ acc : EnvMap,
    (es.foldl (fun env e => mapSet env e.1 e.2) acc).map Prod.fst =
      acc.map Prod.fst ++
        ((firstKeys es).filter fun x => x ∉ acc.map Prod.fst) := by
  induction es with
  | nil =>
    intro acc
    simp [firstKeys]
  | cons e t ih =>
    intro acc
    obtain ⟨k, v⟩ := e
    simp only [List.foldl_cons, firstKeys]
    rw [ih (mapSet acc k v)]
    simp only [mapSet_keys]
    by_cases hm : k ∈ acc.map Prod.fst
    · simp only [if_pos hm]
      rw [List.filter_cons, if_neg (by simpa using hm)]
      rw [filter_not_mem_of_mem (acc.map Prod.fst) k hm (firstKeys t)]
    · simp only [if_neg hm]
      rw [List.filter_cons, if_pos (by simpa using hm)]
      rw [filter_not_mem_append (acc.map Prod.fst) k (firstKeys t)]
      simp

theorem foldl_parseLine_filterMap (lines : List Str) : ∀ acc : EnvMap,
    lines.foldl parseLine acc =
      (lines.filterMap lineEntry).foldl (fun env e => mapSet env e.1 e.2) acc := by
  induction lines with
  | nil =>
    intro acc
    rfl
  | cons l ls ih =>
    intro acc
    simp only [List.foldl_cons, List.filterMap_cons]
    cases he : lineEntry l with
    | none =>
      rw [show parseLine acc l = acc from by rw [parseLine, he]]
      exact ih acc
    | some e =>
      obtain ⟨k, v⟩ := e
      rw [show parseLine acc l = mapSet acc k v from by rw [parseLine, he]]
      simp only [List.foldl_cons]
      exact ih _

/-- Concrete instance of the amended round-trip, with every hypothesis
discharged by evaluation. -/
theorem c1_roundtrip_witness :
    (∀ e ∈ rtWitnessMap, isValidKey e.1 = true) ∧
    (∀ e ∈ rtWitnessMap, goodValue e.2 = true) ∧
    (rtWitnessMap.map Prod.fst).Nodup ∧
    parseEnvFile (serializeEnvFile rtWitnessMap) = rtWitnessMap :=
  ⟨by decide, by decide, by decide,
    c1_roundtrip_amended rtWitnessMap (by decide) (by decide) (by decide)⟩

/-- Claim C9: in `parseEnvFile`, a key occurring on several lines gets the
value of its last occurrence while the mapping order follows the first
occurrences; and upserting an existing key via `handleSetSecret` keeps the
key at its original position in the file that is written back. -/
theorem c9_duplicates_and_position (content : Str) (key value : Str) :
    (∀ k, lookupEnv (parseEnvFile content) k = jsLastValue k (entriesOf content)) ∧
    (parseEnvFile content).map Prod.fst = firstKeys (entriesOf content) ∧
    (envHas (parseEnvFile content) key = true → isValidKey key = true →
      (handleSetSecret true true (some content) key value).2.1 =
        some (serializeEnvFile (mapSet (parseEnvFile content) key value)) ∧
      (mapSet (parseEnvFile content) key value).map Prod.fst =
        (parseEnvFile content).map Prod.fst) := by
  refine ⟨?_, ?_, ?_⟩
  · intro k
    simp only [parseEnvFile, entriesOf]
    rw [foldl_parseLine_filterMap, foldl_mapSet_lookup]
    cases jsLastValue k ((jsSplitNL content).filterMap lineEntry) <;> rfl
  · simp only [parseEnvFile, entriesOf]
    rw [foldl_parseLine_filterMap, foldl_mapSet_keys]
    simp
  · intro hhas hvk
    constructor
    · simp [handleSetSecret, hvk]
    · rw [mapSet_keys, if_pos ((envHas_iff _ _).mp hhas)]

/-- Concrete instance of C9 on a file where `A` occurs twice, upserting the
existing key `B`. -/
theorem c9_witness :
    lookupEnv (parseEnvFile dupKeyFile) "A".toList =
      jsLastValue "A".toList (entriesOf dupKeyFile) ∧
    (parseEnvFile dupKeyFile).map Prod.fst = firstKeys (entriesOf dupKeyFile) ∧
    ((handleSetSecret true true (some dupKeyFile) "B".toList "9".toList).2.1 =
        some (serializeEnvFile (mapSet (parseEnvFile dupKeyFile) "B".toList "9".toList)) ∧
      (mapSet (parseEnvFile dupKeyFile) "B".toList "9".toList).map Prod.fst =
        (parseEnvFile dupKeyFile).map Prod.fst) :=
  ⟨(c9_duplicates_and_position dupKeyFile "B".toList "9".toList).1 "A".toList,
   (c9_duplicates_and_position dupKeyFile "B".toList "9".toList).2.1,
   (c9_duplicates_and_position dupKeyFile "B".toList "9".toList).2.2
     (by decide) (by decide)⟩

/-- Claim C3: when the runtime restart fails (`restartEdgeRuntime` returns
`false`), a secret `Set` or `Delete` whose file mutation succeeded still
returns `success := true` with `restarted := some false`, and the `.env`
file reflects the new mapping; the restart failure is never turned into an
operation failure (the handler returns an envelope, it does not throw). -/
theorem c3_restart_failure_isolation (st : Option Str) (key value : Str) :
    (isValidKey key = true →
      (handleSetSecret false true st key value).1.success = true ∧
      (handleSetSecret false true st key value).1.restarted = some false ∧
      (handleSetSecret false true st key value).2.1 =
        some (serializeEnvFile (mapSet
          (match st with
            | some c => parseEnvFile c
            | none => []) key value))) ∧
    (∀ content, st = some content → envHas (parseEnvFile content) key = true →
      (handleDeleteSecret false true st key).1.success = true ∧
      (handleDeleteSecret false true st key).1.restarted = some false ∧
      (handleDeleteSecret false true st key).2.1 =
        some (serializeEnvFile (mapDelete (parseEnvFile content) key))) := by
  constructor
  · intro hvk
    refine ⟨?_, ?_, ?_⟩ <;> simp [handleSetSecret, hvk]
  · rintro content rfl hhas
    refine ⟨?_, ?_, ?_⟩ <;> simp [handleDeleteSecret, hhas]

/-- Concrete instance of C3: set a fresh key and delete an existing key on a
one-entry file, with the restart failing. -/
theorem c3_witness :
    isValidKey "B".toList = true ∧
    (handleSetSecret false true (some oneSecretFile) "B".toList "2".toList).1.success
      = true ∧
    (handleSetSecret false true (some oneSecretFile) "B".toList "2".toList).1.restarted
      = some false ∧
    envHas (parseEnvFile oneSecretFile) "A".toList = true ∧
    (handleDeleteSecret false true (some oneSecretFile) "A".toList).1.success = true ∧
    (handleDeleteSecret false true (some oneSecretFile) "A".toList).1.restarted
      = some false ∧
    (handleDeleteSecret false true (some oneSecretFile) "A".toList).2.1 =
      some (serializeEnvFile (mapDelete (parseEnvFile oneSecretFile) "A".toList)) :=
  ⟨by decide,
   ((c3_restart_failure_isolation (some oneSecretFile) "B".toList "2".toList).1
     (by decide)).1,
   ((c3_restart_failure_isolation (some oneSecretFile) "B".toList "2".toList).1
     (by decide)).2.1,
   by decide,
   ((c3_restart_failure_isolation (some oneSecretFile) "A".toList "".toList).2
     oneSecretFile rfl (by decide)).1,
   ((c3_restart_failure_isolation (some oneSecretFile) "A".toList "".toList).2
     oneSecretFile rfl (by decide)).2.1,
   ((c3_restart_failure_isolation (some oneSecretFile) "A".toList "".toList).2
     oneSecretFile rfl (by decide)).2.2⟩

/-- Claim C6: a key that fails the pattern `[A-Za-z_][A-Za-z0-9_]*` makes
`handleSetSecret` return the invalid-key failure envelope before any store
access: the `.env` state is unchanged (for any configuration and any prior
state) and no restart is triggered. -/
theorem c6_invalid_key_atomic (restartOk cfg : Bool) (st : Option Str)
    (key value : Str) (h : isValidKey key = false) :
    (handleSetSecret restartOk cfg st key value).1.success = false ∧
    (handleSetSecret restartOk cfg st key value).1.error = some invalidKeyMsg ∧
    (handleSetSecret restartOk cfg st key value).2.1 = st ∧
    (handleSetSecret restartOk cfg st key value).2.2 = false := by
  refine ⟨?_, ?_, ?_, ?_⟩ <;> simp [handleSetSecret, h]

/-- Concrete instance of C6 at the spec's example key `bad-key!`. -/
theorem c6_witness :
    isValidKey "bad-key!".toList = false ∧
    (handleSetSecret true true (some oneSecretFile) "bad-key!".toList "v".toList).1.success
      = false ∧
    (handleSetSecret true true (some oneSecretFile) "bad-key!".toList "v".toList).1.error
      = some invalidKeyMsg ∧
    (handleSetSecret true true (some oneSecretFile) "bad-key!".toList "v".toList).2.1
      = some oneSecretFile ∧
    (handleSetSecret true true (some oneSecretFile) "bad-key!".toList "v".toList).2.2
      = false :=
  ⟨by decide,
   (c6_invalid_key_atomic true true (some oneSecretFile) "bad-key!".toList "v".toList
     (by decide)).1,
   (c6_invalid_key_atomic true true (some oneSecretFile) "bad-key!".toList "v".toList
     (by decide)).2.1,
   (c6_invalid_key_atomic true true (some oneSecretFile) "bad-key!".toList "v".toList
     (by decide)).2.2.1,
   (c6_invalid_key_atomic true true (some oneSecretFile) "bad-key!".toList "v".toList
     (by decide)).2.2.2⟩

theorem mapM_listFnEntry_error (l : List FnDir) :
    (∃ d ∈ l, d.indexFile = none) →
    l.mapM listFnEntry = .error JsError.notFound := by
  induction l with
  | nil =>
    intro h
    simp at h
  | cons d t ih =>
    intro h
    rw [List.mapM_cons]
    cases hd : d.indexFile with
    | none =>
      have hde : listFnEntry d = .error .notFound := by
        simp [listFnEntry, hd]
      rw [hde]
      rfl
    | some src =>
      have ht : ∃ x ∈ t, x.indexFile = none := by
        obtain ⟨x, hx, hxn⟩ := h
        rcases List.mem_cons.mp hx with rfl | hxt
        · rw [hd] at hxn
          exact absurd hxn (by simp)
        · exact ⟨x, hxt, hxn⟩
      have hdo : listFnEntry d = .ok
          { name := d.name, hasIndex := d.indexFile.isSome,
            hasImportMap := d.importMapFile.isSome, updatedAt := d.indexMtime } := by
        simp [listFnEntry, hd]
      rw [hdo, ih ht]
      rfl

theorem mapM_maskEntry_error (l : List (Str × Str)) :
    (∃ e ∈ l, e.2.length < 3) →
    l.mapM maskEntry = .error JsError.rangeError := by
  induction l with
  | nil =>
    intro h
    simp at h
  | cons e t ih =>
    intro h
    rw [List.mapM_cons]
    by_cases he : e.2.length < 3
    · have hneg : min ((e.2.length : Int) - 3) 20 < 0 := by
        apply lt_of_le_of_lt (min_le_left _ _)
        omega
      have hme : maskEntry e = .error .rangeError := by
        unfold maskEntry
        rw [bulletRepeat, if_pos hneg]
        rfl
      rw [hme]
      rfl
    · have ht : ∃ x ∈ t, x.2.length < 3 := by
        obtain ⟨x, hx, hxl⟩ := h
        rcases List.mem_cons.mp hx with rfl | hxt
        · exact absurd hxl he
        · exact ⟨x, hxt, hxl⟩
      have hnn : ¬ (min ((e.2.length : Int) - 3) 20 < 0) := by
        apply not_lt.mpr
        apply le_min
        · omega
        · omega
      have hme : maskEntry e = .ok
          { key := e.1,
            value := e.2.take 3 ++
              List.replicate (min ((e.2.length : Int) - 3) 20).toNat '•',
            length := e.2.length } := by
        unfold maskEntry
        rw [bulletRepeat, if_neg hnn]
        rfl
      rw [hme, ih ht]
      rfl

theorem intMin_toNat (n : Nat) (hn : 3 ≤ n) :
    (min ((n : Int) - 3) 20).toNat = min (n - 3) 20 := by
  rcases le_total ((n : Int) - 3) 20 with hle | hge
  · rw [min_eq_left hle, Nat.min_eq_left (by omega)]
    omega
  · rw [min_eq_right hge, Nat.min_eq_right (by omega)]
    rfl

theorem mapM_maskEntry_ok (l : List (Str × Str)) :
    (∀ e ∈ l, 3 ≤ e.2.length) →
    l.mapM maskEntry = .ok (l.map fun e =>
      { key := e.1,
        value := e.2.take 3 ++ List.replicate (min (e.2.length - 3) 20) '•',
        length := e.2.length }) := by
  induction l with
  | nil =>
    intro _
    rfl
  | cons e t ih =>
    intro h
    have he : 3 ≤ e.2.length := h e (List.mem_cons_self e t)
    have hnn : ¬ (min ((e.2.length : Int) - 3) 20 < 0) := by
      apply not_lt.mpr
      apply le_min
      · omega
      · omega
    have hme : maskEntry e = .ok
        { key := e.1,
          value := e.2.take 3 ++ List.replicate (min (e.2.length - 3) 20) '•',
          length := e.2.length } := by
      unfold maskEntry
      rw [bulletRepeat, if_neg hnn, intMin_toNat e.2.length he]
      rfl
    rw [List.mapM_cons, hme, ih fun x hx => h x (List.mem_cons_of_mem e hx)]
    rfl

/-- Claim C2 is refuted on a store holding one directory without `index.ts`:
the whole listing returns the failure envelope instead of a successful
listing that includes the entry. -/
theorem c2_counterexample :
    (handleListEdgeFunctions true brokenStore).success = false ∧
    (handleListEdgeFunctions true brokenStore).functions = none := by decide

/-- Claim C2 (amended): whenever some immediate subdirectory of the
functions directory lacks an `index.ts`, the unguarded `statSync` throw
aborts the whole listing: `handleListEdgeFunctions` returns the error
envelope (`success := false`, no `functions`, a NotFound-class error), not a
listing with that entry. -/
theorem c2_listing_aborts (st : FnStore)
    (h : ∃ d ∈ st.dirs, d.indexFile = none) :
    (handleListEdgeFunctions true st).success = false ∧
    (handleListEdgeFunctions true st).functions = none ∧
    (handleListEdgeFunctions true st).error = some (errMessage .notFound) := by
  have hm := mapM_listFnEntry_error st.dirs h
  refine ⟨?_, ?_, ?_⟩ <;>
    (unfold handleListEdgeFunctions; rw [if_neg (by decide), hm])

/-- Concrete instance of the amended C2 on the broken one-directory store. -/
theorem c2_witness :
    (∃ d ∈ brokenStore.dirs, d.indexFile = none) ∧
    (handleListEdgeFunctions true brokenStore).success = false ∧
    (handleListEdgeFunctions true brokenStore).functions = none ∧
    (handleListEdgeFunctions true brokenStore).error =
      some (errMessage .notFound) :=
  ⟨by decide,
   (c2_listing_aborts brokenStore (by decide)).1,
   (c2_listing_aborts brokenStore (by decide)).2.1,
   (c2_listing_aborts brokenStore (by decide)).2.2⟩

theorem handleListSecrets_eq (content : Str) :
    handleListSecrets true (some content) =
      (match (parseEnvFile content).mapM maskEntry with
        | .ok secrets => { success := true, secrets := some secrets, error := none }
        | .error e => { success := false, secrets := none, error := some (errMessage e) }) := rfl

/-- Claim C4 is refuted on the spec's own example: the value
`mysecretvalue123` has length 16, so the listing reports `length = 16` and
masks 13 characters; the claim's asserted reported length 17 is wrong. -/
theorem c4_length_counterexample :
    (handleListSecrets true (some maskExampleFile)).secrets =
      some [{ key := "API_KEY".toList,
              value := "mys".toList ++ List.replicate 13 '•',
              length := 16 }] ∧
    (16 : Nat) ≠ 17 := by
  constructor
  · decide
  · decide

/-- Claim C4 (amended): on a secrets file whose stored values all have
length at least 3, `handleListSecrets` succeeds and returns, per entry, the
key, the first 3 characters of the value followed by
`min (length - 3) 20` mask characters, and the true value length (16 for
`mysecretvalue123`); a value of length at least 4 that does not itself
contain the mask character never appears raw as a masked value. -/
theorem c4_masking_amended (content : Str)
    (h : ∀ e ∈ parseEnvFile content, 3 ≤ e.2.length) :
    (handleListSecrets true (some content)).success = true ∧
    (handleListSecrets true (some content)).secrets =
      some ((parseEnvFile content).map fun e =>
        { key := e.1,
          value := e.2.take 3 ++ List.replicate (min (e.2.length - 3) 20) '•',
          length := e.2.length }) ∧
    (∀ e ∈ parseEnvFile content, 4 ≤ e.2.length → ¬ '•' ∈ e.2 →
      e.2.take 3 ++ List.replicate (min (e.2.length - 3) 20) '•' ≠ e.2) := by
  have hm := mapM_maskEntry_ok (parseEnvFile content) h
  refine ⟨?_, ?_, ?_⟩
  · rw [handleListSecrets_eq, hm]
  · rw [handleListSecrets_eq, hm]
  · intro e he h4 hnb heq
    apply hnb
    rw [← heq]
    apply List.mem_append_right
    apply List.mem_replicate.mpr
    refine ⟨?_, rfl⟩
    have h1 : 1 ≤ min (e.2.length - 3) 20 := le_min (by omega) (by omega)
    omega

/-- Concrete instance of the amended C4 at the spec's masking example. -/
theorem c4_witness :
    (∀ e ∈ parseEnvFile maskExampleFile, 3 ≤ e.2.length) ∧
    (handleListSecrets true (some maskExampleFile)).success = true ∧
    (handleListSecrets true (some maskExampleFile)).secrets =
      some ((parseEnvFile maskExampleFile).map fun e =>
        { key := e.1,
          value := e.2.take 3 ++ List.replicate (min (e.2.length - 3) 20) '•',
          length := e.2.length }) :=
  ⟨by decide,
   (c4_masking_amended maskExampleFile (by decide)).1,
   (c4_masking_amended maskExampleFile (by decide)).2.1⟩

/-- Claim C10: when some stored value is shorter than 3 characters the
mask-construction expression calls `repeat` with a negative count, which
throws; the handler catches it and returns the error envelope instead of a
listing. When every value has length at least 3 the listing succeeds. -/
theorem c10_short_value_masking (content : Str) :
    ((∃ e ∈ parseEnvFile content, e.2.length < 3) →
      (handleListSecrets true (some content)).success = false ∧
      (handleListSecrets true (some content)).secrets = none ∧
      (handleListSecrets true (some content)).error =
        some (errMessage .rangeError)) ∧
    ((∀ e ∈ parseEnvFile content, 3 ≤ e.2.length) →
      (handleListSecrets true (some content)).success = true) := by
  constructor
  · intro h
    have hm := mapM_maskEntry_error (parseEnvFile content) h
    refine ⟨?_, ?_, ?_⟩ <;> rw [handleListSecrets_eq, hm]
  · intro h
    have hm := mapM_maskEntry_ok (parseEnvFile content) h
    rw [handleListSecrets_eq, hm]

/-- Concrete instance of C10: a length-1 value makes the listing fail, and
the spec's length-16 example succeeds. -/
theorem c10_witness :
    (∃ e ∈ parseEnvFile shortValueFile, e.2.length < 3) ∧
    (handleListSecrets true (some shortValueFile)).success = false ∧
    (handleListSecrets true (some shortValueFile)).secrets = none ∧
    (∀ e ∈ parseEnvFile maskExampleFile, 3 ≤ e.2.length) ∧
    (handleListSecrets true (some maskExampleFile)).success = true :=
  ⟨by decide,
   ((c10_short_value_masking shortValueFile).1 (by decide)).1,
   ((c10_short_value_masking shortValueFile).1 (by decide)).2.1,
   by decide,
   (c10_short_value_masking maskExampleFile).2 (by decide)⟩

theorem findDir_name (dirs : List FnDir) (n : Str) (d : FnDir)
    (h : findDir dirs n = some d) : d.name = n := by
  induction dirs with
  | nil => simp [findDir] at h
  | cons d' t ih =>
    by_cases hn : d'.name = n
    · simp only [findDir, if_pos hn, Option.some_inj] at h
      rw [← h]
      exact hn
    · simp only [findDir, if_neg hn] at h
      exact ih h

theorem findDir_setDir (dirs : List FnDir) (n : Str) (d : FnDir)
    (hd : d.name = n) : findDir (setDir dirs n d) n = some d := by
  induction dirs with
  | nil => simp [setDir, findDir, hd]
  | cons d' t ih =>
    by_cases hn : d'.name = n
    · simp [setDir, findDir, hn, hd]
    · simp [setDir, findDir, hn, ih]

theorem deployedDir_name (st : FnStore) (name source : Str)
    (im : Option (List (Str × Str))) (now : Nat) :
    (deployedDir st name source im now).name = name := by
  unfold deployedDir
  cases hf : findDir st.dirs name with
  | none =>
    cases im with
    | none => rfl
    | some m => by_cases hm : 0 < m.length <;> simp [hm]
  | some d =>
    have hdn := findDir_name st.dirs name d hf
    cases im with
    | none => simpa using hdn
    | some m => by_cases hm : 0 < m.length <;> simp [hm, hdn]

theorem deployedDir_index (st : FnStore) (name source : Str)
    (im : Option (List (Str × Str))) (now : Nat) :
    (deployedDir st name source im now).indexFile = some source := by
  unfold deployedDir
  cases hf : findDir st.dirs name <;> cases im with
  | none => rfl
  | some m => by_cases hm : 0 < m.length <;> simp [hm]

theorem deployedDir_importMap (st : FnStore) (name source : Str)
    (im : Option (List (Str × Str))) (now : Nat) :
    (deployedDir st name source im now).importMapFile =
      (match im with
        | some m => if 0 < m.length then some m
            else (findDir st.dirs name).bind FnDir.importMapFile
        | none => (findDir st.dirs name).bind FnDir.importMapFile) := by
  unfold deployedDir
  cases hf : findDir st.dirs name <;> cases im with
  | none => rfl
  | some m => by_cases hm : 0 < m.length <;> simp [hm]

/-- Claim C7: for every prior store state, a deploy with configured store
always overwrites the `index.ts` content with the new source, writes
`import_map.json` exactly when a non-empty import map argument is supplied,
and otherwise leaves any pre-existing `import_map.json` of that function
unchanged (never deleting it); the handler reports success and the effective
JWT flag. -/
theorem c7_redeploy_frame (st : FnStore) (name source : Str)
    (im : Option (List (Str × Str))) (vj : Option Bool) (now : Nat) :
    (handleCreateEdgeFunction true st name source im vj now).1.success = true ∧
    (handleCreateEdgeFunction true st name source im vj now).1.verifyJWT =
      some (vj.getD true) ∧
    findDir (handleCreateEdgeFunction true st name source im vj now).2.dirs name =
      some (deployedDir st name source im now) ∧
    (deployedDir st name source im now).indexFile = some source ∧
    (deployedDir st name source im now).importMapFile =
      (match im with
        | some m => if 0 < m.length then some m
            else (findDir st.dirs name).bind FnDir.importMapFile
        | none => (findDir st.dirs name).bind FnDir.importMapFile) :=
  ⟨rfl, rfl,
   findDir_setDir st.dirs name _ (deployedDir_name st name source im now),
   deployedDir_index st name source im now,
   deployedDir_importMap st name source im now⟩

/-- Claim C8: `serializeEnvFile` joins one line per entry with `\n` and a
trailing newline; an entry is emitted quoted as `key="escaped-value"`
(backslashes doubled first, then double quotes escaped) exactly when the
value contains whitespace, `#`, `"`, `'`, `\` or `$`, and is emitted as
plain `key=value` exactly when it contains none of these. -/
theorem c8_quoting_necessity (env : EnvMap) (k v : Str) :
    serializeEnvFile env = joinNL (env.map fun e => entryLine e.1 e.2) ++ ['\n'] ∧
    (v.any envSpecialChar = true →
      entryLine k v = k ++ '=' :: '"' :: (escapeEnvValue v ++ ['"'])) ∧
    (v.any envSpecialChar = false → entryLine k v = k ++ '=' :: v) ∧
    (v.any envSpecialChar = true ↔
      ∃ c ∈ v, isJsWhitespace c = true ∨ c = '#' ∨ c = '"' ∨ c = '\'' ∨
        c = '\\' ∨ c = '$') ∧
    escapeEnvValue v = escapeDoubleQuotes (doubleBackslashes v) := by
  refine ⟨rfl, ?_, ?_, ?_, rfl⟩
  · intro h
    simp [entryLine, h]
  · intro h
    simp [entryLine, h]
  · rw [List.any_eq_true]
    constructor
    · rintro ⟨c, hc, hcs⟩
      refine ⟨c, hc, ?_⟩
      simp only [envSpecialChar, Bool.or_eq_true, decide_eq_true_eq] at hcs
      tauto
    · rintro ⟨c, hc, hcs⟩
      refine ⟨c, hc, ?_⟩
      simp only [envSpecialChar, Bool.or_eq_true, decide_eq_true_eq]
      tauto

/-- Concrete instance of C8 at the spec's two examples: `hello world` is
quoted, `abc123` is not. -/
theorem c8_witness :
    ("hello world".toList.any envSpecialChar = true ∧
      entryLine "KEY".toList "hello world".toList =
        "KEY".toList ++ '=' :: '"' ::
          (escapeEnvValue "hello world".toList ++ ['"'])) ∧
    ("abc123".toList.any envSpecialChar = false ∧
      entryLine "KEY2".toList "abc123".toList =
        "KEY2".toList ++ '=' :: "abc123".toList) :=
  ⟨⟨by decide,
    (c8_quoting_necessity [] "KEY".toList "hello world".toList).2.1 (by decide)⟩,
   ⟨by decide,
    (c8_quoting_necessity [] "KEY2".toList "abc123".toList).2.2.1 (by decide)⟩⟩

/-- Claim C5 is refuted at `handleInvokeEdgeFunction` with a failing
connection provider: `getConnection()` runs before the `try` block, so its
exception escapes the handler instead of being converted to an envelope. -/
theorem c5_invoke_escape_counterexample :
    handleInvokeEdgeFunction failingProvider "hello-world".toList none none =
      .error (.generic "Supabase connection not initialized".toList) := rfl

/-- Claim C5 (amended): every tool handler except the invoke handler returns
a `{success, error}` envelope for every input (each failure path carries an
error message); `handleInvokeEdgeFunction` does so whenever the connection
provider succeeds — including converting structured errors and thrown
exceptions of the call itself — but a failing provider's exception escapes,
because `getConnection()` is called outside the `try` block. -/
theorem c5_no_throw_amended (restartOk cfg : Bool) (st : Option Str)
    (fst : FnStore) (key value name source : Str)
    (im : Option (List (Str × Str))) (vj : Option Bool) (now : Nat)
    (conn : Connection) (payload : Option Str)
    (headers : Option (List (Str × Str))) :
    isEnvelope (handleCreateEdgeFunction cfg fst name source im vj now).1.success
      (handleCreateEdgeFunction cfg fst name source im vj now).1.error ∧
    isEnvelope (handleListEdgeFunctions cfg fst).success
      (handleListEdgeFunctions cfg fst).error ∧
    isEnvelope (handleDeleteEdgeFunction cfg fst name).1.success
      (handleDeleteEdgeFunction cfg fst name).1.error ∧
    isEnvelope (handleSetSecret restartOk cfg st key value).1.success
      (handleSetSecret restartOk cfg st key value).1.error ∧
    isEnvelope (handleDeleteSecret restartOk cfg st key).1.success
      (handleDeleteSecret restartOk cfg st key).1.error ∧
    isEnvelope (handleListSecrets cfg st).success
      (handleListSecrets cfg st).error ∧
    (∃ r, handleInvokeEdgeFunction (.ok conn) name payload headers = .ok r ∧
      isEnvelope r.success r.error) := by
  refine ⟨?_, ?_, ?_, ?_, ?_, ?_, ?_⟩
  · cases cfg <;> simp [handleCreateEdgeFunction, isEnvelope]
  · cases cfg with
    | false => simp [handleListEdgeFunctions, isEnvelope]
    | true =>
      unfold handleListEdgeFunctions
      rw [if_neg (by decide)]
      cases hm : fst.dirs.mapM listFnEntry with
      | ok fns =>
        left
        rfl
      | error e =>
        right
        exact ⟨rfl, rfl⟩
  · cases cfg with
    | false => simp [handleDeleteEdgeFunction, isEnvelope]
    | true =>
      unfold handleDeleteEdgeFunction
      rw [if_neg (by decide)]
      cases hf : findDir fst.dirs name with
      | none =>
        right
        exact ⟨rfl, rfl⟩
      | some d =>
        left
        rfl
  · cases hk : isValidKey key with
    | false => simp [handleSetSecret, hk, isEnvelope]
    | true => cases cfg <;> simp [handleSetSecret, hk, isEnvelope]
  · cases cfg with
    | false => simp [handleDeleteSecret, isEnvelope]
    | true =>
      cases st with
      | none => simp [handleDeleteSecret, isEnvelope]
      | some content =>
        cases hh : envHas (parseEnvFile content) key with
        | false => simp [handleDeleteSecret, hh, isEnvelope]
        | true => simp [handleDeleteSecret, hh, isEnvelope]
  · cases cfg with
    | false => simp [handleListSecrets, isEnvelope]
    | true =>
      cases st with
      | none => simp [handleListSecrets, isEnvelope]
      | some content =>
        rw [handleListSecrets_eq]
        cases hm : (parseEnvFile content).mapM maskEntry with
        | ok secrets =>
          left
          rfl
        | error e =>
          right
          exact ⟨rfl, rfl⟩
  · refine ⟨_, rfl, ?_⟩
    cases hi : conn.invoke name payload headers with
    | result data => left; rfl
    | structuredError msg => right; exact ⟨rfl, rfl⟩
    | thrown e => right; exact ⟨rfl, rfl⟩
